import Mathlib

/-!
Verification development for the `Speller` decoder of the KoSpeech repository
(`kospeech/model/decoder.py`).

The decoder is shallowly embedded: tensors become nested lists (batch-major),
the numeric kernels that the decoder merely invokes (token embedding, dropout,
one step of the recurrent cell, the two attention variants, and the
projection stack `linear1 -> layer_norm -> linear2 -> log_softmax`) are
abstract deterministic functions collected in a `Net` record, exactly mirroring
the call protocol of `Speller.forward_step`.  Machine floats are modelled by
`Rat`; Python exceptions by an `Except PyError` result.  A Python attribute
read on the decoder's two fusion-weight attributes is modelled by a lookup in
the association list that `Speller.__init__` actually populates, so that the
source's `acoutsic_weight` / `acoustic_weight` spelling mismatch is visible.
The single `random.random()` draw of `Speller.forward` is passed in explicitly
as the `rand` argument.
-/

namespace KoSpeech

/-- Per-frame / per-state vectors (rows of a tensor). -/
abbrev Vec := List ℚ

/-- A per-step log-probability row over the vocabulary. -/
abbrev Dist := List ℚ

/-- One batch row of opaque recurrent hidden state. -/
abbrev Hidden := List ℚ

/-- One batch row of attention / alignment state. -/
abbrev AttnT := List ℚ

/-- The external language-model collaborator: given the running token history
(batch-major), returns the distribution for the last position of each row,
as `language_model.forward_step(prev_tokens, None)[0][:, -1, :]` does. -/
abbrev LM := List (List Nat) → List Dist

/-- Python exceptions that the decoder code can raise. -/
inductive PyError where
  | valueError
  | runtimeError
  | attributeError
  | indexError
deriving DecidableEq, Repr

/-- Name of the content-based (multi-head) attention selector in the source. -/
def attnDot : String := "dot"

/-- Name of the location-aware attention selector in the source. -/
def attnLoc : String := "loc"

/-- Attribute name written by `Speller.__init__` (source line 57, misspelled). -/
def wAcousticTypo : String := "acoutsic_weight"

/-- Attribute name read by the fusion line of `Speller.forward` (source line 143). -/
def wAcoustic : String := "acoustic_weight"

/-- Attribute name of the language-model weight (written and read consistently). -/
def wLanguage : String := "language_weight"

/-- The numeric kernels the decoder calls, as abstract deterministic functions.
`embed` is the embedding table lookup, `dropout` the (eval-mode / fixed-mask)
input dropout, `rnnCell` one step of the recurrent layer stack on one batch
row, `attendDot` the content-based attention for one query position
(stateless across positions), `attendLoc` the location-aware attention for a
row's query sequence given the previous alignment, and `project` the
per-position `linear1 ∘ layer_norm ∘ linear2 ∘ log_softmax` stack applied to
the attention context. -/
structure Net where
  embed : Nat → Vec
  dropout : Vec → Vec
  rnnCell : Option Hidden → Vec → Vec × Hidden
  attendDot : Vec → List Vec → Vec × AttnT
  attendLoc : List Vec → List Vec → Option AttnT → List Vec × AttnT
  project : Vec → Dist

/-- The constructor-time configuration of `Speller`, with the attribute store
`attrs` holding exactly the weight attributes `__init__` assigns. `training`
is the `nn.Module` mode flag (`True` after construction, flipped by
`.eval()` outside the core). -/
structure Speller where
  num_classes : Nat
  max_length : Nat
  sos_id : Nat
  eos_id : Nat
  attn_mechanism : String
  attrs : List (String × ℚ)
  training : Bool
deriving DecidableEq, Repr

/-- The `ret_dict` returned by `Speller.forward`: each key is present
(`some`) exactly when it was inserted, holding the accumulated per-step
attention snapshots resp. fed-in token snapshots. -/
structure RetDict where
  attention_score : Option (List (List AttnT))
  sequence_symbol : Option (List (List Nat))
deriving DecidableEq, Repr

/-- `Speller.__init__`: rejects any attention selector outside the enumerated
set, otherwise records the configuration, including the (misspelled) acoustic
fusion-weight attribute and the language fusion-weight attribute. -/
def Speller.make (num_classes max_length sos_id eos_id : Nat)
    (attn_mechanism : String) : Except PyError Speller :=
  if attn_mechanism = attnLoc then
    .ok ⟨num_classes, max_length, sos_id, eos_id, attn_mechanism,
      [(wAcousticTypo, 9/10), (wLanguage, 1/10)], true⟩
  else if attn_mechanism = attnDot then
    .ok ⟨num_classes, max_length, sos_id, eos_id, attn_mechanism,
      [(wAcousticTypo, 9/10), (wLanguage, 1/10)], true⟩
  else
    .error .valueError

/-- Python attribute read of a fusion weight on the decoder object: succeeds
with the stored value when `__init__` assigned that name, raises
`AttributeError` otherwise. -/
def getattrQ (s : Speller) (name : String) : Except PyError ℚ :=
  match s.attrs.lookup name with
  | some v => .ok v
  | none => .error .attributeError

/-- `Speller.validate_args`: with no targets it synthesizes one sos token per
batch row and caps the session at `max_length`, raising `ValueError` when a
positive teacher-forcing ratio was requested; with targets the cap is
`targets.size(1) - 1`. -/
def validate_args (s : Speller) (inputs : Option (List (List Nat)))
    (enc : List (List Vec)) (ratio : ℚ) :
    Except PyError (List (List Nat) × Nat × Nat) :=
  match inputs with
  | none =>
    if 0 < ratio then .error .valueError
    else .ok (List.replicate enc.length [s.sos_id], enc.length, s.max_length)
  | some inp => .ok (inp, enc.length, (inp.headD []).length - 1)

/-- The recurrent layer `self.rnn` over one batch row's positions, threading
hidden state left to right, as a fold of the single-step cell. -/
def rnnRun (net : Net) : Option Hidden → List Vec → List Vec × Option Hidden
  | h, [] => ([], h)
  | h, v :: vs =>
    let p := net.rnnCell h v
    let rest := rnnRun net (some p.2) vs
    (p.1 :: rest.1, rest.2)

/-- The body of `Speller.forward_step` for one batch row: embed, dropout, run
the recurrent stack over the row's positions, then apply the selected
attention and the projection stack per position.  For the content-based
selector, attention is computed independently per query position and the
incoming alignment argument is ignored, exactly as
`self.attention(output, encoder_outputs, encoder_outputs)` does. -/
def stepRow (net : Net) (mech : String) (tokens : List Nat) (h : Option Hidden)
    (encRow : List Vec) (attnRow : Option AttnT) :
    List Dist × Option Hidden × AttnT :=
  let emb := tokens.map (fun t => net.dropout (net.embed t))
  let ro := rnnRun net h emb
  if mech = attnDot then
    let ca := ro.1.map (fun o => net.attendDot o encRow)
    (ca.map (fun p => net.project p.1), ro.2, (ca.map Prod.snd).flatten)
  else
    let cl := net.attendLoc ro.1 encRow attnRow
    (cl.1.map net.project, ro.2, cl.2)

/-- `Speller.forward_step` over the whole batch: each batch row is processed
independently with its own slice of hidden state, encoder outputs and
alignment (the recurrent layer and both attention variants act row-wise). -/
def stepRows (net : Net) (mech : String) :
    List (List Nat) → Option (List Hidden) → List (List Vec) →
    Option (List AttnT) → List (List Dist × Hidden × AttnT)
  | [], _, _, _ => []
  | ts :: rows, h, es, a =>
    let r := stepRow net mech ts (h.map (fun l => l.headD []))
      (es.headD []) (a.map (fun l => l.headD []))
    (r.1, (r.2.1).getD [], r.2.2) ::
      stepRows net mech rows (h.map (fun l => l.drop 1)) (es.drop 1)
        (a.map (fun l => l.drop 1))

/-- `Speller.forward_step`: batched step outputs (batch x positions x vocab,
before the `squeeze(1)`), the new hidden state and the new attention. -/
def forward_step (net : Net) (mech : String) (input_var : List (List Nat))
    (hidden : Option (List Hidden)) (enc : List (List Vec))
    (attn : Option (List AttnT)) :
    List (List Dist) × Option (List Hidden) × List AttnT :=
  let per := stepRows net mech input_var hidden enc attn
  (per.map (fun r => r.1), some (per.map (fun r => r.2.1)),
    per.map (fun r => r.2.2))

/-- `tensor.view(batch, -1)` on the flat stripped token list: the reshape
succeeds exactly when the element count is divisible by `batch`, rows then
being consecutive chunks of the inferred width. -/
def view2 (flat : List Nat) (batch : Nat) : Except PyError (List (List Nat)) :=
  if batch = 0 then .error .runtimeError
  else if flat.length % batch = 0 then
    .ok ((List.range batch).map
      (fun b => (flat.drop (b * (flat.length / batch))).take
        (flat.length / batch)))
  else .error .runtimeError

/-- The content-based teacher-forced branch of `Speller.forward` (source
lines 124-128): one whole-sequence batched `forward_step`, then the loop
`for di in range(step_outputs.size(1))` slicing `step_outputs[:, di, :]`.
When the stripped width is 1 the `squeeze(1)` inside `forward_step` collapses
the position axis, so the slicing loop ranges over the vocabulary axis and
its 3-index access into the now 2-D tensor raises `IndexError` (unless that
axis is empty); a stripped width of 0 makes the recurrent layer reject its
empty input. -/
def tfDotBranch (net : Net) (mech : String) (inputs2 : List (List Nat))
    (enc : List (List Vec)) : Except PyError (List (List Dist)) :=
  if (inputs2.headD []).length = 0 then .error .runtimeError
  else
    let r := forward_step net mech inputs2 none enc none
    if (inputs2.headD []).length = 1 then
      if ((r.1.map (fun row => row.headD [])).headD []).length = 0 then .ok []
      else .error .indexError
    else
      .ok ((List.range (inputs2.headD []).length).map
        (fun di => r.1.map (fun row => row.getD di [])))

/-- The location-aware teacher-forced loop of `Speller.forward` (source lines
117-121): one `forward_step` per target position `di`, feeding column `di`
as a batch of single tokens and threading hidden state and alignment. -/
def tfLocGo (net : Net) (mech : String) (enc : List (List Vec))
    (inputs2 : List (List Nat)) :
    List Nat → Option (List Hidden) → Option (List AttnT) → List (List Dist)
  | [], _, _ => []
  | di :: rest, h, a =>
    let r := forward_step net mech (inputs2.map (fun row => [row.getD di 0]))
      h enc a
    (r.1.map (fun row => row.headD [])) ::
      tfLocGo net mech enc inputs2 rest r.2.1 (some r.2.2)

/-- The loop state of the free-running branch of `Speller.forward`:
the token fed next (`input_var`, one token per batch row), recurrent and
attention state, the language-model history `prev_tokens` (present only when
a language model is attached), the accumulated `decoder_outputs`, and the
diagnostics dictionary. -/
structure FRState where
  input_var : List Nat
  hidden : Option (List Hidden)
  attn : Option (List AttnT)
  prev_tokens : Option (List (List Nat))
  outputs : List (List Dist)
  ret : RetDict
deriving DecidableEq, Repr

/-- Greedy `topk(1)[1]` over one distribution row: index of its maximum,
first occurrence winning. -/
def argmaxAux : List ℚ → Nat → Nat → ℚ → Nat
  | [], _, best, _ => best
  | x :: xs, i, best, bv =>
    if bv < x then argmaxAux xs (i+1) i x else argmaxAux xs (i+1) best bv

/-- Greedy `topk(1)[1]` over one distribution row. -/
def argmax : List ℚ → Nat
  | [] => 0
  | x :: xs => argmaxAux xs 1 0 x

/-- One iteration of the free-running loop of `Speller.forward` (source lines
134-147): a single-token batched `forward_step` (whose output is squeezed to
batch x vocab), then — outside training mode — recording of the attention
snapshot and the fed token, and, when a language model is attached, fusion
`step_output * self.acoustic_weight + lm_step_output * self.language_weight`
(both weights read as Python attributes of the decoder) together with the
extension of the language-model history by the fused arg-max token; finally
the step output is appended and its arg-max becomes the next input. -/
def frStep (net : Net) (s : Speller) (enc : List (List Vec)) (lm : Option LM)
    (st : FRState) : Except PyError FRState :=
  let r := forward_step net s.attn_mechanism
    (st.input_var.map (fun t => [t])) st.hidden enc st.attn
  let stepOut0 := r.1.map (fun row => row.headD [])
  if s.training = true then
    .ok ⟨stepOut0.map argmax, r.2.1, some r.2.2, st.prev_tokens,
      st.outputs ++ [stepOut0], st.ret⟩
  else
    let ret1 : RetDict :=
      ⟨st.ret.attention_score.map (fun l => l ++ [r.2.2]),
       st.ret.sequence_symbol.map (fun l => l ++ [st.input_var])⟩
    match lm with
    | none =>
      .ok ⟨stepOut0.map argmax, r.2.1, some r.2.2, st.prev_tokens,
        st.outputs ++ [stepOut0], ret1⟩
    | some lmf =>
      let lmOut := lmf (st.prev_tokens.getD [])
      match getattrQ s wAcoustic, getattrQ s wLanguage with
      | .ok wa, .ok wl =>
        let fused := List.zipWith
          (fun arow lrow => List.zipWith (fun x y => x * wa + y * wl) arow lrow)
          stepOut0 lmOut
        let prev2 := some (List.zipWith (fun row d => row ++ [argmax d])
          (st.prev_tokens.getD []) fused)
        .ok ⟨fused.map argmax, r.2.1, some r.2.2, prev2,
          st.outputs ++ [fused], ret1⟩
      | .error e, _ => .error e
      | .ok _, .error e => .error e

/-- The free-running loop `for di in range(max_length)` as iterated `frStep`. -/
def frLoop (net : Net) (s : Speller) (enc : List (List Vec)) (lm : Option LM) :
    Nat → FRState → Except PyError FRState
  | 0, st => .ok st
  | n+1, st => (frStep net s enc lm st).bind (frLoop net s enc lm n)

/-- The `ret_dict` as initialized at the top of `Speller.forward`: the two
diagnostics keys are inserted (with empty lists) exactly when the module is
not in training mode. -/
def retInit (s : Speller) : RetDict :=
  if s.training = true then ⟨none, none⟩ else ⟨some [], some []⟩

/-- The teacher-forced branch of `Speller.forward` (source lines 112-128):
strip every end-of-sequence token from the (row-major flattened) targets,
reshape to `(batch, -1)`, then run either the per-position location-aware
loop or the single batched content-based step. -/
def tfRun (net : Net) (s : Speller) (inputs1 : List (List Nat)) (batch : Nat)
    (enc : List (List Vec)) : Except PyError (List (List Dist)) :=
  (view2 (inputs1.flatten.filter (fun t => t ≠ s.eos_id)) batch).bind
    (fun inputs2 =>
      if s.attn_mechanism = attnLoc then
        .ok (tfLocGo net s.attn_mechanism enc inputs2
          (List.range (inputs2.headD []).length) none none)
      else tfDotBranch net s.attn_mechanism inputs2 enc)

/-- The free-running branch of `Speller.forward` (source lines 130-147):
seed with the first column of the resolved inputs, keep the language-model
history only when a language model is attached, and iterate the loop body
`maxLen` times. -/
def frRun (net : Net) (s : Speller) (inputs1 : List (List Nat)) (maxLen : Nat)
    (enc : List (List Vec)) (lm : Option LM) (ret0 : RetDict) :
    Except PyError (List (List Dist) × RetDict) :=
  (frLoop net s enc lm maxLen
    ⟨inputs1.map (fun row => row.getD 0 0), none, none,
      (if lm.isSome then some (inputs1.map (fun row => [row.getD 0 0]))
       else none), [], ret0⟩).bind
    (fun st => .ok (st.outputs, st.ret))

/-- `Speller.forward`: initialize the diagnostics dictionary, resolve the
arguments, draw the single uniform sample `rand` (the one `random.random()`
call of source line 109) and take the teacher-forced branch exactly when
`rand < ratio`, the free-running branch otherwise. -/
def forward (net : Net) (s : Speller) (inputs : Option (List (List Nat)))
    (enc : List (List Vec)) (ratio : ℚ) (lm : Option LM) (rand : ℚ) :
    Except PyError (List (List Dist) × RetDict) :=
  (validate_args s inputs enc ratio).bind (fun v =>
    if rand < ratio then
      (tfRun net s v.1 v.2.1 enc).map (fun outs => (outs, retInit s))
    else frRun net s v.1 v.2.2 enc lm (retInit s))

/-- Columns `di = 0 .. c-1` of a batch-major token matrix, as the sequence of
per-position batched inputs `inputs[:, di]`. -/
def colsOf (c : Nat) (rows : List (List Nat)) : List (List Nat) :=
  (List.range c).map (fun di => rows.map (fun r => r.getD di 0))

/-- Modelled from the spec: the step-by-step reference loop of §4.2/§8 for
the teacher-forced content-based path — invoke the step function once per
target position, as a batch of single tokens, threading recurrent state (and
the returned alignment) forward, collecting the squeezed per-step
distributions. -/
def specSequentialLoop (net : Net) (enc : List (List Vec)) :
    List (List Nat) → Option (List Hidden) → Option (List AttnT) →
    List (List Dist)
  | [], _, _ => []
  | col :: cols, h, a =>
    let r := forward_step net attnDot (col.map (fun t => [t])) h enc a
    (r.1.map (fun row => row.headD [])) ::
      specSequentialLoop net enc cols r.2.1 (some r.2.2)

/-! Concrete instantiations used by counterexamples and witnesses.  The
abstract kernels are given small executable values; the speller configuration
is the one `Speller.make` produces for the content-based selector, with
`training` flipped off as `model.eval()` does before inference. -/

/-- A small executable kernel instantiation (vocabulary width 3). -/
def cNet : Net where
  embed := fun t => [(t : ℚ)]
  dropout := fun v => v
  rnnCell := fun h v =>
    ([v.headD 0 + (h.getD []).headD 0], [v.headD 0 + (h.getD []).headD 0 + 1])
  attendDot := fun q e => (q ++ (e.headD []), q)
  attendLoc := fun outs _ a => (outs.map (fun o => o ++ (a.getD []).take 1), [1])
  project := fun v => [v.headD 0, v.headD 0 + 1, 0]

/-- The decoder configuration produced by the constructor for the
content-based selector (vocab 3, max length 5, sos 1, eos 2). -/
def cSp0 : Speller :=
  ⟨3, 5, 1, 2, attnDot, [(wAcousticTypo, 9/10), (wLanguage, 1/10)], true⟩

/-- The same decoder after `model.eval()`. -/
def cSp : Speller := { cSp0 with training := false }

/-- A hypothetical decoder whose attribute store actually contains the
attribute name the fusion line reads. -/
def wSp : Speller := { cSp with attrs := [(wAcoustic, 9/10), (wLanguage, 1/10)] }

/-- A constant external language model over the 3-token vocabulary. -/
def cLM : LM := fun rows => rows.map (fun _ => [0, 1, 0])

/-- Encoder output for batch size 1 (two encoder timesteps). -/
def cEnc1 : List (List Vec) := [[[1], [2]]]

/-- Encoder output for batch size 2. -/
def cEnc2 : List (List Vec) := [[[1]], [[1]]]

/-- An attention-selector string outside the enumerated set. -/
def bogusAttn : String := "bogus"

theorem make_loc_or_dot_ok (nc ml sos eos : Nat) (attn : String)
    (h : attn = attnLoc ∨ attn = attnDot) :
    ∃ sp, Speller.make nc ml sos eos attn = .ok sp := by
  rcases h with h | h <;> simp [Speller.make, h, attnDot, attnLoc]

/-- C5: constructing the decoder with an attention-variant selector outside
the enumerated set, i.e. neither the location-aware `loc` nor the
content-based `dot` selector, raises the configuration `ValueError` of
`Speller.__init__` at construction time, before any decoder object exists. -/
theorem speller_make_bad_attn_error (nc ml sos eos : Nat) (attn : String)
    (h1 : attn ≠ attnLoc) (h2 : attn ≠ attnDot) :
    Speller.make nc ml sos eos attn = .error .valueError := by
  simp [Speller.make, h1, h2]

/-- Witness for C5 at the concrete selector string `bogus`. -/
theorem speller_make_bad_attn_error_witness :
    bogusAttn ≠ attnLoc ∧ bogusAttn ≠ attnDot ∧
      Speller.make 3 5 1 2 bogusAttn = .error .valueError :=
  ⟨by decide, by decide,
    speller_make_bad_attn_error 3 5 1 2 bogusAttn (by decide) (by decide)⟩

/-- C4: calling the decoder with no target sequence and a strictly positive
teacher-forcing probability makes `validate_args` raise `ValueError` before
any decode step runs (the whole `forward` call returns that error); with no
targets and probability 0, `validate_args` instead returns a batch of
start-of-sequence seed tokens together with the configured maximum length as
the session cap. -/
theorem forward_no_targets (net : Net) (s : Speller) (enc : List (List Vec))
    (ratio : ℚ) (lm : Option LM) (rand : ℚ) :
    (0 < ratio →
      forward net s none enc ratio lm rand = .error .valueError)
    ∧ (ratio = 0 →
      validate_args s none enc ratio
        = .ok (List.replicate enc.length [s.sos_id], enc.length,
            s.max_length)) := by
  constructor
  · intro h
    simp [forward, validate_args, h, Except.bind]
  · intro h
    subst h
    simp [validate_args]

/-- Witness for C4 at concrete inputs (ratio 1 errors; ratio 0 yields the
sos seed and the configured cap 5). -/
theorem forward_no_targets_witness :
    ((0 : ℚ) < 1 ∧
      forward cNet cSp none cEnc1 1 none 0 = .error .valueError)
    ∧ (validate_args cSp none cEnc1 0 = .ok ([[1]], 1, 5)) :=
  ⟨⟨by norm_num, (forward_no_targets cNet cSp cEnc1 1 none 0).1 (by norm_num)⟩,
    by
      have h := (forward_no_targets cNet cSp cEnc1 0 none 0).2 rfl
      simpa [cSp, cSp0, cEnc1] using h⟩

theorem frStep_ok_outputs_len (net : Net) (s : Speller) (enc : List (List Vec))
    (lm : Option LM) (st st' : FRState)
    (hok : frStep net s enc lm st = .ok st') :
    st'.outputs.length = st.outputs.length + 1 := by
  by_cases ht : s.training = true
  · simp [frStep, ht] at hok
    subst hok
    simp
  · cases lm with
    | none =>
      simp [frStep, ht] at hok
      subst hok
      simp
    | some lmf =>
      simp only [frStep, ht, if_false] at hok
      cases hwa : getattrQ s wAcoustic with
      | error e => simp [hwa] at hok
      | ok wa =>
        cases hwl : getattrQ s wLanguage with
        | error e => simp [hwa, hwl] at hok
        | ok wl =>
          simp [hwa, hwl] at hok
          subst hok
          simp

theorem frLoop_ok_outputs_len (net : Net) (s : Speller) (enc : List (List Vec))
    (lm : Option LM) :
    ∀ (n : Nat) (st st' : FRState), frLoop net s enc lm n st = .ok st' →
      st'.outputs.length = st.outputs.length + n := by
  intro n
  induction n with
  | zero =>
    intro st st' h
    simp [frLoop] at h
    subst h
    rfl
  | succ n ih =>
    intro st st' h
    simp only [frLoop] at h
    cases hs : frStep net s enc lm st with
    | error e => rw [hs] at h; simp [Except.bind] at h
    | ok stm =>
      rw [hs] at h
      simp only [Except.bind] at h
      have h1 := frStep_ok_outputs_len net s enc lm st stm hs
      have h2 := ih stm st' h
      omega

theorem frStep_none_ok (net : Net) (s : Speller) (enc : List (List Vec))
    (st : FRState) : ∃ st', frStep net s enc none st = .ok st' := by
  by_cases ht : s.training = true <;> simp [frStep, ht]

theorem frLoop_none_ok (net : Net) (s : Speller) (enc : List (List Vec)) :
    ∀ (n : Nat) (st : FRState), ∃ st', frLoop net s enc none n st = .ok st' := by
  intro n
  induction n with
  | zero => intro st; exact ⟨st, rfl⟩
  | succ n ih =>
    intro st
    obtain ⟨stm, hm⟩ := frStep_none_ok net s enc st
    obtain ⟨st', h'⟩ := ih stm
    exact ⟨st', by simp only [frLoop, hm, Except.bind]; exact h'⟩

/-- C3: a free-running decode call (no targets, teacher-forcing probability 0,
any nonnegative random sample) runs the loop exactly `max_length` times,
appending one distribution per step with no early stop on the
end-of-sequence token: without a language model the call succeeds and the
output trace has length exactly `max_length`; and any such call that returns
at all (language model or not, either training mode) returns a trace of
length exactly `max_length`. -/
theorem forward_free_running_len (net : Net) (s : Speller)
    (enc : List (List Vec)) (lm : Option LM) (rand : ℚ) (h0 : 0 ≤ rand) :
    (lm = none →
      (forward net s none enc 0 lm rand).map (fun p => p.1.length)
        = .ok s.max_length)
    ∧ (∀ outs ret, forward net s none enc 0 lm rand = .ok (outs, ret) →
        outs.length = s.max_length) := by
  have hnr : ¬ rand < (0 : ℚ) := not_lt.mpr h0
  have hfwd : forward net s none enc 0 lm rand
      = frRun net s (List.replicate enc.length [s.sos_id]) s.max_length enc lm
          (retInit s) := by
    simp [forward, validate_args, Except.bind, hnr]
  constructor
  · intro hlm
    subst hlm
    rw [hfwd]
    obtain ⟨st', h'⟩ := frLoop_none_ok net s enc s.max_length
      ⟨(List.replicate enc.length [s.sos_id]).map (fun row => row.getD 0 0),
        none, none, none, [], retInit s⟩
    have hl := frLoop_ok_outputs_len net s enc none s.max_length _ st' h'
    simp only [frRun, Option.isSome_none, Bool.false_eq_true, if_false] at *
    rw [h']
    simp only [Except.bind, Except.map]
    simp only [List.length_nil, Nat.zero_add] at hl
    rw [hl]
  · intro outs ret hok
    rw [hfwd] at hok
    simp only [frRun] at hok
    cases hlp : frLoop net s enc lm s.max_length
        ⟨(List.replicate enc.length [s.sos_id]).map (fun row => row.getD 0 0),
          none, none,
          (if lm.isSome then
            some ((List.replicate enc.length [s.sos_id]).map
              (fun row => [row.getD 0 0]))
           else none), [], retInit s⟩ with
    | error e => rw [hlp] at hok; simp [Except.bind] at hok
    | ok st' =>
      rw [hlp] at hok
      simp only [Except.bind, Except.ok.injEq, Prod.mk.injEq] at hok
      have hl := frLoop_ok_outputs_len net s enc lm s.max_length _ st' hlp
      simp only [List.length_nil, Nat.zero_add] at hl
      rw [← hok.1, hl]

/-- Witness for C3 at concrete inputs: batch 1, max length 5, no language
model, eval mode. -/
theorem forward_free_running_len_witness :
    (0 : ℚ) ≤ 0 ∧
      (forward cNet cSp none cEnc1 0 none 0).map (fun p => p.1.length)
        = .ok 5 :=
  ⟨le_refl 0,
    (forward_free_running_len cNet cSp cEnc1 none 0 (le_refl 0)).1 rfl⟩

/-- C9: language-model fusion never alters the recurrent state.  Whenever an
iteration of the free-running loop with a language model attached completes,
the hidden state it passes to the next iteration is exactly the hidden state
returned by `forward_step` for that iteration — the fusion code only
replaces the step distribution (and the token history derived from it). -/
theorem frStep_lm_preserves_hidden (net : Net) (s : Speller)
    (enc : List (List Vec)) (lmf : LM) (st st' : FRState)
    (hok : frStep net s enc (some lmf) st = .ok st') :
    st'.hidden
      = (forward_step net s.attn_mechanism (st.input_var.map (fun t => [t]))
          st.hidden enc st.attn).2.1 := by
  by_cases ht : s.training = true
  · simp [frStep, ht] at hok
    subst hok
    rfl
  · simp only [frStep, ht, if_false] at hok
    cases hwa : getattrQ s wAcoustic with
    | error e => simp [hwa] at hok
    | ok wa =>
      cases hwl : getattrQ s wLanguage with
      | error e => simp [hwa, hwl] at hok
      | ok wl =>
        simp [hwa, hwl] at hok
        subst hok
        rfl

/-- Initial loop state for the C9 witness: eval mode, language-model history
seeded with the sos token. -/
def st0w : FRState := ⟨[1], none, none, some [[1]], [], ⟨some [], some []⟩⟩

/-- Witness for C9: a concrete completing fused step (on a decoder object
whose attribute store contains the read attribute name) hands exactly the
`forward_step` hidden state to the next iteration. -/
theorem frStep_lm_preserves_hidden_witness :
    (frStep cNet wSp cEnc1 (some cLM) st0w).map FRState.hidden
      = .ok ((forward_step cNet wSp.attn_mechanism
          (st0w.input_var.map (fun t => [t])) st0w.hidden cEnc1
          st0w.attn).2.1) := by
  cases h : frStep cNet wSp cEnc1 (some cLM) st0w with
  | error e =>
    have hko : (frStep cNet wSp cEnc1 (some cLM) st0w).toOption.isSome
        = true := by decide
    rw [h] at hko
    simp [Except.toOption] at hko
  | ok st' =>
    simp only [Except.map]
    rw [frStep_lm_preserves_hidden cNet wSp cEnc1 cLM st0w st' h]

/-- C2 (code bug): `Speller.__init__` stores the acoustic fusion weight under
the misspelled attribute name `acoutsic_weight`, while the fusion line of
`Speller.forward` reads `self.acoustic_weight`; hence on the constructor-made
decoder every free-running inference step with a language model attached
raises `AttributeError` instead of producing the weighted sum
`0.9 * acoustic + 0.1 * language`. -/
theorem lm_fusion_attribute_bug :
    Speller.make 3 5 1 2 attnDot = .ok cSp0
    ∧ getattrQ cSp wAcousticTypo = .ok (9/10)
    ∧ getattrQ cSp wAcoustic = .error .attributeError
    ∧ forward cNet cSp none cEnc1 0 (some cLM) 0 = .error .attributeError := by
  exact ⟨rfl, rfl, rfl, rfl⟩

theorem filter_flatten_eq (p : Nat → Bool) (L : List (List Nat)) :
    L.flatten.filter p = (L.map (fun l => l.filter p)).flatten := by
  induction L with
  | nil => rfl
  | cons a l ih => simp [List.filter_append, ih]

theorem flatten_filter_len (eos : Nat) (targets : List (List Nat)) (c : Nat)
    (huni : ∀ row ∈ targets,
      (row.filter (fun t => t ≠ eos)).length = c) :
    (targets.flatten.filter (fun t => t ≠ eos)).length
      = targets.length * c := by
  rw [filter_flatten_eq, List.length_flatten, List.map_map]
  have hmc : targets.map (List.length ∘ fun l => l.filter (fun t => t ≠ eos))
      = targets.map (fun _ => c) :=
    List.map_congr_left (fun row hr => huni row hr)
  rw [hmc]
  simp [List.map_const', mul_comm]

theorem tfLocGo_len (net : Net) (mech : String) (enc : List (List Vec))
    (inputs2 : List (List Nat)) :
    ∀ (dis : List Nat) (h : Option (List Hidden)) (a : Option (List AttnT)),
      (tfLocGo net mech enc inputs2 dis h a).length = dis.length := by
  intro dis
  induction dis with
  | nil => intro h a; rfl
  | cons di rest ih => intro h a; simp [tfLocGo, ih]

theorem view2_uniform_ok (flat : List Nat) (batch c : Nat) (hb : 0 < batch)
    (hlen : flat.length = batch * c) :
    ∃ rows, view2 flat batch = .ok rows ∧ rows.length = batch
      ∧ (∀ r ∈ rows, r.length = c) ∧ (rows.headD []).length = c := by
  have hb0 : batch ≠ 0 := Nat.pos_iff_ne_zero.mp hb
  have hmod : flat.length % batch = 0 := by rw [hlen]; exact Nat.mul_mod_right batch c
  have hq : flat.length / batch = c := by rw [hlen]; exact Nat.mul_div_cancel_left c hb
  refine ⟨(List.range batch).map
    (fun b => (flat.drop (b * (flat.length / batch))).take
      (flat.length / batch)), ?_, ?_, ?_, ?_⟩
  · simp [view2, hb0, hmod]
  · simp
  · intro r hr
    rw [List.mem_map] at hr
    obtain ⟨b, hbmem, hbeq⟩ := hr
    rw [List.mem_range] at hbmem
    subst hbeq
    rw [hq, List.length_take, List.length_drop, hlen]
    have h1 : (b + 1) * c ≤ batch * c := Nat.mul_le_mul_right c (by omega)
    rw [Nat.succ_mul] at h1
    omega
  · obtain ⟨n, hn⟩ : ∃ n, batch = n + 1 := ⟨batch - 1, by omega⟩
    subst hn
    rw [List.range_succ_eq_map]
    simp only [List.map_cons, List.headD_cons, Nat.zero_mul, List.drop_zero]
    rw [hq, List.length_take, hlen]
    have h1 : 1 * c ≤ (n + 1) * c := Nat.mul_le_mul_right c (by omega)
    rw [Nat.one_mul] at h1
    omega

theorem forward_tf_trace_len (net : Net) (s : Speller)
    (targets : List (List Nat)) (enc : List (List Vec)) (ratio rand : ℚ)
    (lm : Option LM) (c : Nat)
    (hb : 0 < enc.length) (hbt : targets.length = enc.length)
    (hr : rand < ratio)
    (huni : ∀ row ∈ targets,
      (row.filter (fun t => t ≠ s.eos_id)).length = c)
    (hmech : s.attn_mechanism = attnLoc
      ∨ (s.attn_mechanism = attnDot ∧ 2 ≤ c)) :
    (forward net s (some targets) enc ratio lm rand).map
      (fun p => p.1.length) = .ok c := by
  have hflat : (targets.flatten.filter (fun t => t ≠ s.eos_id)).length
      = enc.length * c := by
    rw [flatten_filter_len s.eos_id targets c huni, hbt]
  obtain ⟨rows, hview, hrl, hmem, hhead⟩ :=
    view2_uniform_ok (targets.flatten.filter (fun t => t ≠ s.eos_id))
      enc.length c hb hflat
  have hfwd : forward net s (some targets) enc ratio lm rand
      = (tfRun net s targets enc.length enc).map
          (fun outs => (outs, retInit s)) := by
    simp [forward, validate_args, Except.bind, hr]
  rw [hfwd]
  rcases hmech with hloc | ⟨hdot, hc2⟩
  · have htf : tfRun net s targets enc.length enc
        = .ok (tfLocGo net s.attn_mechanism enc rows
            (List.range (rows.headD []).length) none none) := by
      simp only [tfRun]
      rw [hview]
      simp only [Except.bind]
      rw [if_pos hloc]
    rw [htf]
    simp only [Except.map]
    rw [tfLocGo_len, List.length_range, hhead]
  · have hne : ¬ s.attn_mechanism = attnLoc := by
      rw [hdot]; decide
    have htf : tfRun net s targets enc.length enc
        = tfDotBranch net s.attn_mechanism rows enc := by
      simp only [tfRun]
      rw [hview]
      simp only [Except.bind]
      rw [if_neg hne]
    rw [htf]
    have h0 : ¬ (rows.headD []).length = 0 := by omega
    have h1 : ¬ (rows.headD []).length = 1 := by omega
    simp only [tfDotBranch]
    rw [if_neg h0, if_neg h1]
    simp only [Except.map]
    rw [List.length_map, List.length_range, hhead]

/-- C1 counterexample: teacher-forced decode (probability 1) on a supplied
target of length `L = 2` containing no end-of-sequence token returns a trace
of length 2, not `L - 1 = 1` — the loop count is the stripped non-eos width,
not the cap computed by `validate_args`. -/
theorem tf_len_counterexample :
    (forward cNet cSp (some [[1, 0]]) cEnc1 1 none 0).map
      (fun p => p.1.length) = .ok 2
    ∧ (2 : Nat) ≠ 2 - 1 := ⟨rfl, by decide⟩

/-- C1 (amended): for a teacher-forced decode call (sample below the
probability) with targets of length `L` in which every batch row carries
exactly one end-of-sequence token (so each row keeps `L - 1` tokens after
eos stripping), the output trace has length exactly `L - 1`; for the
content-based batched path this needs `L ≥ 3`, since a stripped width of 1
trips over the squeezed step output. -/
theorem tf_len_amended (net : Net) (s : Speller) (targets : List (List Nat))
    (enc : List (List Vec)) (ratio rand : ℚ) (lm : Option LM) (L : Nat)
    (hb : 0 < enc.length) (hbt : targets.length = enc.length)
    (hr : rand < ratio)
    (_hL : ∀ row ∈ targets, row.length = L)
    (heos : ∀ row ∈ targets,
      (row.filter (fun t => t ≠ s.eos_id)).length = L - 1)
    (hmech : s.attn_mechanism = attnLoc
      ∨ (s.attn_mechanism = attnDot ∧ 3 ≤ L)) :
    (forward net s (some targets) enc ratio lm rand).map
      (fun p => p.1.length) = .ok (L - 1) := by
  apply forward_tf_trace_len net s targets enc ratio rand lm (L - 1) hb hbt hr
    heos
  rcases hmech with h | ⟨h1, h2⟩
  · exact Or.inl h
  · exact Or.inr ⟨h1, by omega⟩

/-- Witness for the amended C1: targets `[[1, 0, 2]]` of length 3 with one
eos token; the trace has length 2 = 3 - 1. -/
theorem tf_len_amended_witness :
    (forward cNet cSp (some [[1, 0, 2]]) cEnc1 1 none 0).map
      (fun p => p.1.length) = .ok 2 :=
  tf_len_amended cNet cSp [[1, 0, 2]] cEnc1 1 0 none 3 (by decide) (by decide)
    (by norm_num) (by decide) (by decide) (Or.inr ⟨rfl, by decide⟩)

/-- C10 counterexample: the teacher-forced reshape also succeeds for a batch
whose rows carry different non-eos counts (1 and 3 here, total 4 divisible
by batch 2): the call returns a trace of length 2 even though the per-row
counts differ, so equal per-row counts are not necessary for the reshape. -/
theorem reshape_unequal_rows_counterexample :
    (forward cNet cSp (some [[0, 2, 2, 2], [0, 0, 0, 2]]) cEnc2 1 none 0).map
      (fun p => p.1.length) = .ok 2
    ∧ ¬ (([0, 2, 2, 2].filter (fun t => t ≠ 2)).length
        = ([0, 0, 0, 2].filter (fun t => t ≠ 2)).length) := ⟨rfl, by decide⟩

/-- C10 (amended): in the teacher-forced branch every occurrence of the
end-of-sequence id is removed from the row-major flattened targets before
stepping; the reshape to `(batch, -1)` succeeds precisely when the batch
size divides the total non-eos count (equal per-row counts are sufficient
but not necessary), and when every row carries the same non-eos count `c`
the branch executes exactly `c` steps — not the `L - 1` cap computed by
`validate_args` (for the content-based batched path this needs `c ≥ 2`). -/
theorem tf_strip_reshape_amended (net : Net) (s : Speller)
    (targets : List (List Nat)) (enc : List (List Vec)) (ratio rand : ℚ)
    (lm : Option LM)
    (hb : 0 < enc.length) (hbt : targets.length = enc.length)
    (hr : rand < ratio) :
    (¬ (enc.length ∣
        (targets.flatten.filter (fun t => t ≠ s.eos_id)).length) →
      forward net s (some targets) enc ratio lm rand = .error .runtimeError)
    ∧ (∀ c, (∀ row ∈ targets,
          (row.filter (fun t => t ≠ s.eos_id)).length = c) →
        (s.attn_mechanism = attnLoc
          ∨ (s.attn_mechanism = attnDot ∧ 2 ≤ c)) →
        (forward net s (some targets) enc ratio lm rand).map
          (fun p => p.1.length) = .ok c) := by
  constructor
  · intro hnd
    have hmod : (targets.flatten.filter (fun t => t ≠ s.eos_id)).length
        % enc.length ≠ 0 := by
      intro h
      exact hnd (Nat.dvd_iff_mod_eq_zero.mpr h)
    have hb0 : enc.length ≠ 0 := Nat.pos_iff_ne_zero.mp hb
    have hfwd : forward net s (some targets) enc ratio lm rand
        = (tfRun net s targets enc.length enc).map
            (fun outs => (outs, retInit s)) := by
      simp [forward, validate_args, Except.bind, hr]
    have hverr : view2 (targets.flatten.filter (fun t => t ≠ s.eos_id))
        enc.length = .error .runtimeError := by
      simp only [view2]
      rw [if_neg hb0, if_neg hmod]
    rw [hfwd]
    simp only [tfRun]
    rw [hverr]
    rfl
  · intro c huni hmech
    exact forward_tf_trace_len net s targets enc ratio rand lm c hb hbt hr
      huni hmech

/-- Witness for the amended C10: uniform row length 2 with unequal total 3
not divisible by batch 2 makes the reshape fail with `RuntimeError`. -/
theorem tf_strip_reshape_amended_witness :
    forward cNet cSp (some [[0, 2], [0, 0]]) cEnc2 1 none 0
      = .error .runtimeError :=
  (tf_strip_reshape_amended cNet cSp [[0, 2], [0, 0]] cEnc2 1 0 none
    (by decide) (by decide) (by norm_num)).1 (by decide)

/-- C6: the mode of a decode call is decided by the single uniform sample
drawn before the loop (source line 109) and by nothing else: two calls whose
samples fall on the same side of the teacher-forcing probability are
indistinguishable, the teacher-forced branch runs exactly when
`sample < ratio`, and the chosen branch (which never re-reads the sample) is
fixed for the whole session. -/
theorem forward_single_coin_flip (net : Net) (s : Speller)
    (inputs : Option (List (List Nat))) (enc : List (List Vec)) (ratio : ℚ)
    (lm : Option LM) (rand rand' : ℚ) :
    ((rand < ratio ↔ rand' < ratio) →
      forward net s inputs enc ratio lm rand
        = forward net s inputs enc ratio lm rand')
    ∧ (rand < ratio → forward net s inputs enc ratio lm rand
        = (validate_args s inputs enc ratio).bind (fun v =>
            (tfRun net s v.1 v.2.1 enc).map (fun outs => (outs, retInit s))))
    ∧ (¬ rand < ratio → forward net s inputs enc ratio lm rand
        = (validate_args s inputs enc ratio).bind (fun v =>
            frRun net s v.1 v.2.2 enc lm (retInit s))) := by
  refine ⟨?_, ?_, ?_⟩
  · intro h
    simp only [forward]
    congr 1
    funext v
    rw [if_congr h rfl rfl]
  · intro h
    simp only [forward]
    congr 1
    funext v
    rw [if_pos h]
  · intro h
    simp only [forward]
    congr 1
    funext v
    rw [if_neg h]

/-- Witness for C6: two concrete samples 0 and 1/2, both below probability 1,
give identical results. -/
theorem forward_single_coin_flip_witness :
    ((0 : ℚ) < 1 ↔ (1/2 : ℚ) < 1) ∧
      forward cNet cSp (some [[1, 0, 2]]) cEnc1 1 none 0
        = forward cNet cSp (some [[1, 0, 2]]) cEnc1 1 none (1/2) :=
  ⟨by norm_num,
    (forward_single_coin_flip cNet cSp (some [[1, 0, 2]]) cEnc1 1 none 0
      (1/2)).1 (by norm_num)⟩

/-- C8: any decode call that takes the teacher-forced branch returns the
diagnostics dictionary exactly as initialized: no attention-score entry and
no sequence-symbol entry is ever appended, and the two keys are present
(with empty traces) precisely when the module is not in training mode. -/
theorem tf_no_diagnostics (net : Net) (s : Speller)
    (inputs : Option (List (List Nat))) (enc : List (List Vec)) (ratio : ℚ)
    (lm : Option LM) (rand : ℚ) (outs : List (List Dist)) (ret : RetDict)
    (hr : rand < ratio)
    (hok : forward net s inputs enc ratio lm rand = .ok (outs, ret)) :
    ret.attention_score = (if s.training = true then none else some [])
    ∧ ret.sequence_symbol = (if s.training = true then none else some []) := by
  simp only [forward] at hok
  cases hv : validate_args s inputs enc ratio with
  | error e => rw [hv] at hok; simp [Except.bind] at hok
  | ok v =>
    rw [hv] at hok
    simp only [Except.bind] at hok
    rw [if_pos hr] at hok
    cases htr : tfRun net s v.1 v.2.1 enc with
    | error e => rw [htr] at hok; simp [Except.map] at hok
    | ok outs0 =>
      rw [htr] at hok
      simp only [Except.map, Except.ok.injEq, Prod.mk.injEq] at hok
      rw [← hok.2]
      by_cases ht : s.training = true <;> simp [retInit, ht]

/-- Witness for C8: a concrete teacher-forced call in training mode returns a
diagnostics dictionary with neither key present. -/
theorem tf_no_diagnostics_witness :
    (forward cNet cSp0 (some [[1, 0, 2]]) cEnc1 1 none 0).map
      (fun p => (p.2.attention_score, p.2.sequence_symbol))
      = .ok (none, none) := by
  cases h : forward cNet cSp0 (some [[1, 0, 2]]) cEnc1 1 none 0 with
  | error e =>
    have hko : (forward cNet cSp0 (some [[1, 0, 2]]) cEnc1 1 none
        0).toOption.isSome = true := by decide
    rw [h] at hko
    simp [Except.toOption] at hko
  | ok p =>
    obtain ⟨outs, ret⟩ := p
    have hd := tf_no_diagnostics cNet cSp0 (some [[1, 0, 2]]) cEnc1 1 none 0
      outs ret (by norm_num) h
    simp only [Except.map]
    rw [hd.1, hd.2]
    rfl

theorem stepRow_dot_attn (net : Net) (ts : List Nat) (h : Option Hidden)
    (e : List Vec) (a b : Option AttnT) :
    stepRow net attnDot ts h e a = stepRow net attnDot ts h e b := by
  simp [stepRow]

theorem stepRow_dot_nil (net : Net) (h : Option Hidden) (e : List Vec)
    (a : Option AttnT) : stepRow net attnDot [] h e a = ([], h, []) := by
  simp [stepRow, rnnRun]

theorem stepRow_dot_cons (net : Net) (t : Nat) (ts : List Nat)
    (h : Option Hidden) (e : List Vec) (a : Option AttnT) :
    stepRow net attnDot (t :: ts) h e a
      = (net.project
            (net.attendDot (net.rnnCell h (net.dropout (net.embed t))).1 e).1
          :: (stepRow net attnDot ts
              (some (net.rnnCell h (net.dropout (net.embed t))).2) e a).1,
        (stepRow net attnDot ts
          (some (net.rnnCell h (net.dropout (net.embed t))).2) e a).2.1,
        (net.attendDot (net.rnnCell h (net.dropout (net.embed t))).1 e).2
          ++ (stepRow net attnDot ts
              (some (net.rnnCell h (net.dropout (net.embed t))).2) e a).2.2) := by
  simp [stepRow, rnnRun]

theorem stepRow_dot_single (net : Net) (t : Nat) (h : Option Hidden)
    (e : List Vec) (a : Option AttnT) :
    stepRow net attnDot [t] h e a
      = ([net.project
            (net.attendDot (net.rnnCell h (net.dropout (net.embed t))).1 e).1],
        some (net.rnnCell h (net.dropout (net.embed t))).2,
        (net.attendDot (net.rnnCell h (net.dropout (net.embed t))).1 e).2) := by
  rw [stepRow_dot_cons, stepRow_dot_nil]
  simp

theorem stepRows_dot_attn (net : Net) :
    ∀ (rows : List (List Nat)) (h : Option (List Hidden))
      (es : List (List Vec)) (a b : Option (List AttnT)),
    stepRows net attnDot rows h es a = stepRows net attnDot rows h es b := by
  intro rows
  induction rows with
  | nil => intro h es a b; rfl
  | cons ts rows ih =>
    intro h es a b
    simp only [stepRows]
    rw [stepRow_dot_attn net ts _ _ (a.map (fun l => l.headD []))
        (b.map (fun l => l.headD [])),
      ih (h.map (fun l => l.drop 1)) (es.drop 1)
        (a.map (fun l => l.drop 1)) (b.map (fun l => l.drop 1))]

theorem stepRows_dot_col0 (net : Net) :
    ∀ (rows : List (List Nat)) (h : Option (List Hidden))
      (es : List (List Vec)) (a : Option (List AttnT)),
    (∀ r ∈ rows, r ≠ []) →
    (stepRows net attnDot rows h es a).map (fun p => p.1.getD 0 [])
      = (stepRows net attnDot (rows.map (fun r => [r.getD 0 0])) h es a).map
          (fun p => p.1.headD []) := by
  intro rows
  induction rows with
  | nil => intro h es a _; rfl
  | cons ts rows ih =>
    intro h es a hne
    cases ts with
    | nil => exact absurd rfl (hne [] (List.mem_cons_self [] rows))
    | cons t ts0 =>
      simp only [stepRows, List.map_cons, List.getD_cons_zero]
      rw [stepRow_dot_cons, stepRow_dot_single]
      simp only [List.getD_cons_zero, List.headD_cons]
      rw [ih (h.map (fun l => l.drop 1)) (es.drop 1)
        (a.map (fun l => l.drop 1))
        (fun r hr => hne r (List.mem_cons_of_mem _ hr))]

theorem stepRows_dot_shift (net : Net) :
    ∀ (rows : List (List Nat)) (h : Option (List Hidden))
      (es : List (List Vec)) (a a2 : Option (List AttnT)) (di : Nat),
    (∀ r ∈ rows, r ≠ []) →
    (stepRows net attnDot rows h es a).map (fun p => p.1.getD (di+1) [])
      = (stepRows net attnDot (rows.map (fun r => r.drop 1))
          (some ((stepRows net attnDot (rows.map (fun r => [r.getD 0 0]))
            h es a).map (fun p => p.2.1)))
          es a2).map (fun p => p.1.getD di []) := by
  intro rows
  induction rows with
  | nil => intro h es a a2 di _; rfl
  | cons ts rows ih =>
    intro h es a a2 di hne
    cases ts with
    | nil => exact absurd rfl (hne [] (List.mem_cons_self [] rows))
    | cons t ts0 =>
      simp only [stepRows, List.map_cons, List.getD_cons_zero,
        List.drop_succ_cons, List.drop_zero]
      rw [stepRow_dot_cons, stepRow_dot_single]
      simp only [List.map_cons, Option.map_some', List.headD_cons,
        List.drop_succ_cons, List.drop_zero, Option.getD_some,
        List.getD_cons_succ]
      rw [List.cons_eq_cons]
      refine ⟨?_, ?_⟩
      · exact congrArg (fun x => x.1.getD di [])
          (stepRow_dot_attn net ts0 _ _ (a.map (fun l => l.headD []))
            (a2.map (fun l => l.headD [])))
      · rw [ih (h.map (fun l => l.drop 1)) (es.drop 1)
          (a.map (fun l => l.drop 1)) (a2.map (fun l => l.drop 1)) di
          (fun r hr => hne r (List.mem_cons_of_mem _ hr))]

theorem colsOf_succ (c : Nat) (rows : List (List Nat))
    (hne : ∀ r ∈ rows, r ≠ []) :
    colsOf (c+1) rows
      = rows.map (fun r => r.getD 0 0)
        :: colsOf c (rows.map (fun r => r.drop 1)) := by
  simp only [colsOf, List.range_succ_eq_map, List.map_cons, List.map_map]
  congr 1
  apply List.map_congr_left
  intro di _
  simp only [Function.comp, List.map_map]
  apply List.map_congr_left
  intro r hr
  cases r with
  | nil => exact absurd rfl (hne [] hr)
  | cons x xs => simp [List.getD_cons_succ]

theorem stepRows_dot_cols (net : Net) (enc : List (List Vec)) :
    ∀ (c : Nat) (rows : List (List Nat)) (h : Option (List Hidden))
      (a : Option (List AttnT)),
    (∀ r ∈ rows, r.length = c) →
    (List.range c).map (fun di =>
        (stepRows net attnDot rows h enc a).map (fun p => p.1.getD di []))
      = specSequentialLoop net enc (colsOf c rows) h a := by
  intro c
  induction c with
  | zero => intro rows h a _; rfl
  | succ c ih =>
    intro rows h a hlen
    have hne : ∀ r ∈ rows, r ≠ [] := by
      intro r hr hnil
      have := hlen r hr
      rw [hnil] at this
      simp at this
    rw [colsOf_succ c rows hne]
    rw [List.range_succ_eq_map, List.map_cons]
    simp only [specSequentialLoop, forward_step, List.map_map,
      Function.comp_def, Nat.succ_eq_add_one]
    rw [List.cons_eq_cons]
    refine ⟨?_, ?_⟩
    · exact stepRows_dot_col0 net rows h enc a hne
    · have hpt : ∀ di ∈ List.range c,
          (stepRows net attnDot rows h enc a).map
            (fun p => p.1.getD (di + 1) [])
          = (stepRows net attnDot (rows.map (fun r => r.drop 1))
              (some ((stepRows net attnDot
                (rows.map (fun r => [r.getD 0 0])) h enc a).map
                  (fun p => p.2.1)))
              enc (some ((stepRows net attnDot
                (rows.map (fun r => [r.getD 0 0])) h enc a).map
                  (fun p => p.2.2)))).map (fun p => p.1.getD di []) := by
        intro di _
        exact stepRows_dot_shift net rows h enc a _ di hne
      rw [List.map_congr_left hpt]
      exact ih (rows.map (fun r => r.drop 1)) _ _
        (by
          intro r hr
          rw [List.mem_map] at hr
          obtain ⟨r0, hr0, hr0e⟩ := hr
          subst hr0e
          rw [List.length_drop, hlen r0 hr0]
          omega)

/-- C7: under content-based attention in the teacher-forced branch, the
single whole-sequence batched `forward_step` call (with its per-position
slicing loop) produces exactly the TokenDistribution sequence that the
spec's step-by-step reference loop produces by invoking the step function
once per target position while threading recurrent state forward.  The
width hypothesis `2 ≤ c` keeps the batched path away from its
squeeze-related width-1 failure. -/
theorem tf_batched_eq_sequential (net : Net) (inputs2 : List (List Nat))
    (enc : List (List Vec)) (c : Nat)
    (hb : inputs2 ≠ []) (hc : 2 ≤ c)
    (hlen : ∀ r ∈ inputs2, r.length = c) :
    tfDotBranch net attnDot inputs2 enc
      = .ok (specSequentialLoop net enc (colsOf c inputs2) none none) := by
  have hhead : (inputs2.headD []).length = c := by
    cases inputs2 with
    | nil => exact absurd rfl hb
    | cons r rs => exact hlen r (List.mem_cons_self r rs)
  simp only [tfDotBranch]
  rw [hhead, if_neg (by omega), if_neg (by omega)]
  have hcols : (fun di => (forward_step net attnDot inputs2 none enc
        none).1.map (fun row => row.getD di []))
      = fun di => (stepRows net attnDot inputs2 none enc none).map
          (fun p => p.1.getD di []) := by
    funext di
    simp only [forward_step, List.map_map]
    rfl
  rw [hcols, stepRows_dot_cols net enc c inputs2 none none hlen]

/-- Witness for C7 at concrete inputs: batch 1, stripped width 2. -/
theorem tf_batched_eq_sequential_witness :
    tfDotBranch cNet attnDot [[1, 0]] cEnc1
      = .ok (specSequentialLoop cNet cEnc1 (colsOf 2 [[1, 0]]) none none) :=
  tf_batched_eq_sequential cNet [[1, 0]] cEnc1 2 (by decide) (by decide)
    (by decide)

end KoSpeech
